import Mathlib

/-!
Verification of the Kestrel voice-first coding assistant.

The development shallowly embeds the parts of the Python sources that the
verified properties speak about:

* `src/agent_tools.py` / `src/agent_tools_validation.py` — path confinement
  (`_resolve_path`) and the file tools (`write_file`, `append_file`).
* `src/coder_agent.py` — the Coder event loop (`CoderAgent.run`), in
  particular the `tool_call` / `tool_result` correlation ids.
* `src/manager_agent.py` — plan execution with the per-task retry policy
  (`process_request`, `_execute_task_with_retry`) and the plan fallback
  (`decompose_intent`).
* `src/task_types.py` — the `<plan>` and `<result>` XML parsers.
* `src/server.py` — the summarizer normalizer (`normalize_summary`).
* `src/session_manager.py` — event recording (`record_event`),
  transcript aggregation (`_aggregate_transcript`) and `kill_session`.

Python text is modelled as `List Char`; Python `dict`s keyed by strings are
modelled as functions into `Option`.  Machine-level effects (the actual
filesystem writes) are modelled by an explicit filesystem state record.
-/

namespace Kestrel

/-- Python strings are modelled as lists of unicode characters. -/
abbrev Str := List Char

/-- Boolean substring test, modelling Python's `needle in hay`. -/
def hasSub (needle : Str) : Str → Bool
  | [] => needle.isEmpty
  | c :: rest => needle.isPrefixOf (c :: rest) || hasSub needle rest

/-- Python whitespace, as stripped by `str.strip()` and matched by `\s`. -/
def pyWs (c : Char) : Bool :=
  c = ' ' || c = '\t' || c = '\n' || c = '\r' || c = '\x0b' || c = '\x0c'

/-- Python `str.strip()`. -/
def pyStrip (s : Str) : Str :=
  ((s.dropWhile pyWs).reverse.dropWhile pyWs).reverse

/-- Python `str.lower()` (ASCII case folding suffices for the compared
keywords, which are all ASCII). -/
def pyLower (s : Str) : Str := s.map Char.toLower

/-- Python `str.split()` (split on whitespace runs, dropping empties). -/
def pySplit : Str → List Str
  | [] => []
  | c :: rest =>
    if pyWs c then pySplit rest
    else
      let run := rest.takeWhile (fun x => !pyWs x)
      (c :: run) :: pySplit (rest.drop run.length)
termination_by s => s.length
decreasing_by
  all_goals simp [List.length_drop]
  all_goals omega

/-- Find the first occurrence of `needle` in a string, returning the text
before it and the text after it.  Models the scanning of `re.search` for a
literal pattern. -/
def splitFirst (needle : Str) : Str → Option (Str × Str)
  | [] => if needle.isPrefixOf [] then some ([], []) else none
  | c :: rest =>
    if needle.isPrefixOf (c :: rest) then some ([], (c :: rest).drop needle.length)
    else (splitFirst needle rest).map (fun p => (c :: p.1, p.2))

/-- Model of `re.search(r"OP([\s\S]*?)CL", hay)` returning the first
captured group, for literal tags `OP` and `CL`: the leftmost `OP`
occurrence followed by the nearest later `CL`.  (If no `CL` follows the
first `OP`, none follows any later `OP` either, so the whole search
fails.) -/
def extractTag (op cl hay : Str) : Option Str :=
  (splitFirst op hay).bind fun p => (splitFirst cl p.2).map (fun q => q.1)

/-- Split a string on a separator character (Python `str.split(sep)`). -/
def splitCharAux (sep : Char) : List Char → List Char → List (List Char)
  | [], acc => [acc.reverse]
  | c :: rest, acc =>
    if c = sep then acc.reverse :: splitCharAux sep rest []
    else splitCharAux sep rest (c :: acc)

/-- Model of `[x.strip() for x in text.split(",") if x.strip()]`. -/
def splitCommaStrip (s : Str) : List Str :=
  ((splitCharAux ',' s []).map pyStrip).filter (fun x => x ≠ [])

/-! ## Path resolution (`_resolve_path` in `agent_tools.py`)

`Path(...).resolve()` on a symlink-free tree normalizes `.`, `..` and empty
components; the resolved absolute path is modelled by its list of
components.  `str(Path(...))` renders `"/"` followed by the components
joined with `"/"`. -/

/-- Nonempty path components of a path string. -/
def pathComps (s : Str) : List Str :=
  (splitCharAux '/' s []).filter (fun c => c ≠ [])

/-- One step of lexical `resolve` normalization: `.` is dropped, `..` pops
the last component (staying at the root when there is none). -/
def normStep (stack : List Str) (c : Str) : List Str :=
  if c = ".".data then stack
  else if c = "..".data then stack.dropLast
  else stack ++ [c]

/-- `Path.resolve()` normalization over components (symlink-free tree). -/
def normComps (cs : List Str) : List Str := cs.foldl normStep []

/-- `str(path)` for a resolved absolute path. -/
def renderAbs (cs : List Str) : Str := '/' :: List.intercalate "/".data cs

/-- `os.path.isabs`. -/
def isAbs (p : Str) : Bool := "/".data.isPrefixOf p

/-- Model of `_resolve_path(cwd, path_str)` from `agent_tools.py` (the copy
in `agent_tools_validation.py` is identical): empty paths are rejected, the
candidate is resolved against the resolved cwd, and the confinement check
is `str(candidate).startswith(str(cwd_path))`. -/
def resolvePath (cwd path : Str) : Except Str (List Str) :=
  if path = [] then .error "Path is required.".data
  else
    let cwdR := normComps (pathComps cwd)
    let candidate :=
      if isAbs path then normComps (pathComps path)
      else normComps (pathComps cwd ++ pathComps path)
    if (renderAbs cwdR).isPrefixOf (renderAbs candidate) then .ok candidate
    else .error "Path escapes the working directory.".data

/-- A resolved path is a descendant of (or equal to) the resolved cwd when
the cwd's components are a prefix of its components. -/
def isDescendant (cand cwdR : List Str) : Bool := cwdR.isPrefixOf cand

/-! ## Filesystem tools (`write_file` / `append_file` in `agent_tools.py`)

The filesystem is modelled by the set of directories present and a map
from resolved file paths to contents. -/

/-- Model of the filesystem state the tools act on. -/
structure FileSys where
  dirs : List (List Str)
  files : List Str → Option Str

/-- Directories created by `resolved.parent.mkdir(parents=True,
exist_ok=True)`: every prefix of the parent of the resolved path. -/
def dirChain (parent : List Str) : List (List Str) :=
  (List.range (parent.length + 1)).map (fun n => parent.take n)

/-- Result dict returned by `write_file` / `append_file`. -/
structure WriteResult where
  path : Str
  bytesWritten : Nat

/-- Model of `write_file(cwd, path, content)`: resolve/confine the path,
create missing parent directories, write `content or ""`, and report
`len(content or "")` as `bytes_written`. -/
def writeFile (fs : FileSys) (cwd path : Str) (content : Option Str) :
    Except Str (FileSys × WriteResult) :=
  match resolvePath cwd path with
  | .error e => .error e
  | .ok resolved =>
    let text := content.getD []
    .ok ({ dirs := fs.dirs ++ dirChain resolved.dropLast,
           files := fun p => if p = resolved then some text else fs.files p },
         { path := path, bytesWritten := text.length })

/-- Model of `append_file(cwd, path, content)`: like `write_file` but
opens the file in append mode. -/
def appendFile (fs : FileSys) (cwd path : Str) (content : Option Str) :
    Except Str (FileSys × WriteResult) :=
  match resolvePath cwd path with
  | .error e => .error e
  | .ok resolved =>
    let text := content.getD []
    let old := (fs.files resolved).getD []
    .ok ({ dirs := fs.dirs ++ dirChain resolved.dropLast,
           files := fun p => if p = resolved then some (old ++ text) else fs.files p },
         { path := path, bytesWritten := text.length })

/-! ## Task types (`task_types.py`) -/

/-- `TaskStatus` enum. -/
inductive TaskStatus where
  | pending
  | inProgress
  | completed
  | failed
  | blocked
deriving DecidableEq, Repr

/-- `Task` dataclass. -/
structure Task where
  id : Str
  description : Str
  successCriteria : Str
  dependencies : List Str
  status : TaskStatus := .pending
  result : Option Str := none
  errors : List Str := []
  retries : Nat := 0
deriving DecidableEq, Repr

/-- `TaskPlan` dataclass (confidence is an exact rational, which contains
every value Python's `float()` produces for the decimal strings the
confidence regex admits). -/
structure TaskPlan where
  intent : Str
  confidence : ℚ
  tasks : List Task
  needsClarification : Option Str := none
deriving DecidableEq, Repr

/-- `TaskResult` dataclass. -/
structure TaskResult where
  status : TaskStatus
  summary : Str
  filesChanged : List Str := []
  tested : Bool := false
  errors : List Str := []
deriving DecidableEq, Repr

/-- The `status_map` lookup in `parse_result_xml`, with `FAILED` as the
default for unrecognized strings. -/
def statusMap (s : Str) : TaskStatus :=
  if s = "success".data then .completed
  else if s = "completed".data then .completed
  else if s = "partial".data then .inProgress
  else if s = "failed".data then .failed
  else if s = "error".data then .failed
  else .failed

/-- Model of `parse_result_xml(content)`. -/
def parseResultXml (content : Str) : Option TaskResult :=
  match extractTag "<result>".data "</result>".data content with
  | none => none
  | some rt =>
    let statusStr :=
      match extractTag "<status>".data "</status>".data rt with
      | some s => pyLower (pyStrip s)
      | none => "failed".data
    let summary := ((extractTag "<summary>".data "</summary>".data rt).map pyStrip).getD []
    let filesText := ((extractTag "<files>".data "</files>".data rt).map pyStrip).getD []
    let testedStr :=
      match extractTag "<tested>".data "</tested>".data rt with
      | some s => pyLower (pyStrip s)
      | none => "false".data
    let tested := testedStr = "true".data || testedStr = "yes".data || testedStr = "1".data
    let errorsText := ((extractTag "<errors>".data "</errors>".data rt).map pyStrip).getD []
    some { status := statusMap statusStr,
           summary := summary,
           filesChanged := splitCommaStrip filesText,
           tested := tested,
           errors := if errorsText = [] then [] else [errorsText] }

/-- Value of a decimal digit string (most significant first). -/
def digitsVal (ds : Str) : Nat := ds.foldl (fun a c => a * 10 + (c.toNat - 48)) 0

/-- Model of Python `float()` applied to a string matched by `[\d.]+`:
digit runs with at most one dot parse to an exact rational; anything else
(such as `"1.2.3"` or `"."`) raises `ValueError`. -/
def parseFloat (s : Str) : Except Str ℚ :=
  if !s.all (fun c => c.isDigit || c = '.') then .error "could not convert string to float".data
  else
    match splitCharAux '.' s [] with
    | [i] => if i = [] then .error "could not convert string to float".data else .ok (digitsVal i)
    | [i, f] =>
      if i = [] && f = [] then .error "could not convert string to float".data
      else .ok ((digitsVal i : ℚ) + (digitsVal f : ℚ) / ((10 : ℚ) ^ f.length))
    | _ => .error "could not convert string to float".data

/-- Model of `re.search(r"<confidence>([\d.]+)</confidence>", s)`: the
leftmost `<confidence>` tag immediately followed by a maximal nonempty
run of digits and dots and then `</confidence>`. -/
def findConfidence : Str → Option Str
  | [] => none
  | c :: rest =>
    if "<confidence>".data.isPrefixOf (c :: rest) then
      let r := (c :: rest).drop 12
      let ds := r.takeWhile (fun x => x.isDigit || x = '.')
      if ds ≠ [] && "</confidence>".data.isPrefixOf (r.drop ds.length) then some ds
      else findConfidence rest
    else findConfidence rest

/-- Auxiliary length bound used for termination of the tag scanners: a
successful `splitFirst` with a nonempty needle consumes at least one
character. -/
theorem splitFirst_some_length (needle : Str) (hne : needle ≠ []) :
    ∀ hay b a, splitFirst needle hay = some (b, a) → a.length < hay.length := by
  intro hay
  induction hay with
  | nil =>
    intro b a h
    have hpf : needle.isPrefixOf ([] : Str) = false := by
      cases needle with
      | nil => exact absurd rfl hne
      | cons x xs => rfl
    simp [splitFirst, hpf] at h
  | cons c rest ih =>
    intro b a h
    rw [splitFirst] at h
    by_cases hp : needle.isPrefixOf (c :: rest) = true
    · rw [if_pos hp] at h
      simp only [Option.some.injEq, Prod.mk.injEq] at h
      obtain ⟨-, ha⟩ := h
      have hlen : 1 ≤ needle.length := by
        cases needle with
        | nil => exact absurd rfl hne
        | cons x xs => simp
      rw [← ha]
      simp only [List.length_drop, List.length_cons]
      omega
    · rw [if_neg hp] at h
      cases hsf : splitFirst needle rest with
      | none => rw [hsf] at h; simp at h
      | some p =>
        rw [hsf] at h
        simp only [Option.map, Option.some.injEq, Prod.mk.injEq] at h
        obtain ⟨-, ha⟩ := h
        rw [← ha]
        have := ih p.1 p.2 (by rw [hsf])
        simp only [List.length_cons]
        omega

/-- Model of one attempted match of the task-header regex
`<task\s+id=["\']?(\d+)["\']?>` at the start of `s`, returning the
captured id digits and the number of characters the match consumed
(the remainder of the scan is `s.drop n`). -/
def matchTaskOpen (s : Str) : Option (Str × Nat) :=
  if "<task".data.isPrefixOf s then
    let r1 := s.drop 5
    let nws := (r1.takeWhile pyWs).length
    if nws = 0 then none
    else
      let r2 := r1.drop nws
      if "id=".data.isPrefixOf r2 then
        let r3 := r2.drop 3
        let nq1 := if r3.head? = some '"' || r3.head? = some '\'' then 1 else 0
        let r4 := r3.drop nq1
        let ds := r4.takeWhile Char.isDigit
        if ds = [] then none
        else
          let r5 := r4.drop ds.length
          let nq2 := if r5.head? = some '"' || r5.head? = some '\'' then 1 else 0
          let r6 := r5.drop nq2
          if r6.head? = some '>' then some (ds, 5 + nws + 3 + nq1 + ds.length + nq2 + 1)
          else none
      else none
  else none

/-- Model of `re.findall(r'<task\s+id=["\']?(\d+)["\']?>([\s\S]*?)</task>', s)`:
scan left to right, emitting `(id, body)` for each non-overlapping match
and resuming after the consumed text. -/
def findTasks : Str → List (Str × Str)
  | [] => []
  | c :: rest =>
    match matchTaskOpen (c :: rest) with
    | some (tid, n) =>
      match hsf : splitFirst "</task>".data ((c :: rest).drop n) with
      | some (body, after) => (tid, body) :: findTasks after
      | none => findTasks rest
    | none => findTasks rest
termination_by s => s.length
decreasing_by
  all_goals
    first
      | (simp only [List.length_cons]; omega)
      | (have h1 := splitFirst_some_length "</task>".data (by decide) _ _ _ hsf
         simp only [List.length_drop, List.length_cons] at h1 ⊢
         omega)

/-- Parse one `<task>` body into a `Task` (description, criteria and
comma-separated dependencies). -/
def parseTaskBody (tid body : Str) : Task :=
  { id := tid,
    description := ((extractTag "<description>".data "</description>".data body).map pyStrip).getD [],
    successCriteria := ((extractTag "<criteria>".data "</criteria>".data body).map pyStrip).getD [],
    dependencies := splitCommaStrip (((extractTag "<depends>".data "</depends>".data body).map pyStrip).getD []) }

/-- Model of `parse_plan_xml(content)`.  A missing `<plan>` block yields
`none`; a malformed confidence string (for example `"1.2.3"`, which the
regex `[\d.]+` admits but `float()` rejects) raises, modelled by
`Except.error`. -/
def parsePlanXml (content : Str) : Except Str (Option TaskPlan) :=
  match extractTag "<plan>".data "</plan>".data content with
  | none => .ok none
  | some pt =>
    let intent := ((extractTag "<intent>".data "</intent>".data pt).map pyStrip).getD []
    let clarify0 := (extractTag "<clarify>".data "</clarify>".data pt).map pyStrip
    let clarify := match clarify0 with
      | some [] => none
      | x => x
    let tasks := (findTasks pt).map (fun p => parseTaskBody p.1 p.2)
    match findConfidence pt with
    | some ds =>
      match parseFloat ds with
      | .error e => .error e
      | .ok conf => .ok (some { intent := intent, confidence := conf, tasks := tasks,
                                needsClarification := clarify })
    | none => .ok (some { intent := intent, confidence := 1/2, tasks := tasks,
                          needsClarification := clarify })

/-! ## Manager agent (`manager_agent.py`) -/

/-- Model of `ManagerAgent.decompose_intent`: parse the LLM response; on a
missing plan block fabricate the single-task fallback echoing the user
text with confidence `0.5`. -/
def decomposeIntent (response userText : Str) : Except Str TaskPlan :=
  match parsePlanXml response with
  | .error e => .error e
  | .ok (some p) => .ok p
  | .ok none =>
    .ok { intent := userText,
          confidence := 1/2,
          tasks := [{ id := "1".data,
                      description := userText,
                      successCriteria := "Task completed without errors".data,
                      dependencies := [] }],
          needsClarification := none }

/-- The missing-dependency computation in `process_request`:
`[d for d in task.dependencies if d not in completed_tasks]`. -/
def missingDeps (deps completed : List Str) : List Str :=
  deps.filter (fun d => !completed.contains d)

/-- Model of the `for attempt in range(max_retries + 1)` loop of
`_execute_task_with_retry`: `res attempt` abstracts the `TaskStatus` the
Coder run plus result parsing produce on that attempt.  Returns the number
of Coder invocations made and whether the task completed. -/
def executeAttempts (res : Nat → TaskStatus) : Nat → Nat → Nat × Bool
  | _, 0 => (0, false)
  | attempt, fuel + 1 =>
    if res attempt = .completed then (1, true)
    else
      let r := executeAttempts res (attempt + 1) fuel
      (r.1 + 1, r.2)

/-- Model of the task loop of `ManagerAgent.process_request`: walk the
plan's tasks carrying the completed-task list; a task with missing
dependencies is skipped (zero Coder invocations), otherwise it is executed
with up to `maxRetries` retries and added to the completed list when it
completes.  Each output entry records the task, the missing dependencies
found at its turn, and the number of Coder invocations it triggered. -/
def processTasks (maxRetries : Nat) (oracle : Task → Nat → TaskStatus) :
    List Task → List Str → List (Task × List Str × Nat)
  | [], _ => []
  | t :: rest, completed =>
    let missing := missingDeps t.dependencies completed
    if missing ≠ [] then (t, missing, 0) :: processTasks maxRetries oracle rest completed
    else
      let r := executeAttempts (oracle t) 0 (maxRetries + 1)
      (t, [], r.1) ::
        processTasks maxRetries oracle rest (if r.2 then completed ++ [t.id] else completed)

/-- Default `max_retries` of `ManagerAgent.__init__` (and `CoderAgent`). -/
def defaultMaxRetries : Nat := 2

/-! ## Session registries (`SessionManager.kill_session`) -/

/-- The four per-session registries of `SessionManager`, as finite maps
from session id; the stored values are abstract. -/
structure MgrState (A B C D : Type) where
  sessions : Str → Option A
  sessionMetadata : Str → Option B
  transcripts : Str → Option C
  transcriptPaths : Str → Option D

/-- Model of `kill_session(session_id)`: when the id is in `_sessions`,
delete it from each registry that holds it and return `True`; otherwise
return `False` and change nothing. -/
def killSession {A B C D : Type} (st : MgrState A B C D) (sid : Str) :
    Bool × MgrState A B C D :=
  match st.sessions sid with
  | some _ =>
    (true,
     { sessions := fun k => if k = sid then none else st.sessions k,
       sessionMetadata := fun k => if k = sid then none else st.sessionMetadata k,
       transcripts := fun k => if k = sid then none else st.transcripts k,
       transcriptPaths := fun k => if k = sid then none else st.transcriptPaths k })
  | none => (false, st)

/-! ## Base64 and UTF-8 (`record_event` / `get_transcript` in
`session_manager.py`)

`record_event` stores `base64.b64encode(content.encode("utf-8"))` as
`body_b64`; `get_transcript` recovers the content with
`base64.b64decode(...).decode("utf-8")`.  Bytes are modelled as `Nat`
values below 256 and code points as `Nat` values. -/

/-- The standard base64 alphabet. -/
def b64Alphabet : List Char :=
  "ABCDEFGHIJKLMNOPQRSTUVWXYZabcdefghijklmnopqrstuvwxyz0123456789+/".data

/-- Character for a sextet. -/
def b64Char (s : Nat) : Char := b64Alphabet.getD s 'A'

/-- Sextet for a character (none when outside the alphabet). -/
def b64Index (c : Char) : Option Nat := b64Alphabet.findIdx? (fun x => x = c)

/-- Model of `base64.b64encode` over byte lists, including `=` padding. -/
def b64encode : List Nat → List Char
  | [] => []
  | [a] => [b64Char (a / 4), b64Char (a % 4 * 16), '=', '=']
  | [a, b] => [b64Char (a / 4), b64Char (a % 4 * 16 + b / 16), b64Char (b % 16 * 4), '=']
  | a :: b :: c :: rest =>
    b64Char (a / 4) :: b64Char (a % 4 * 16 + b / 16) ::
      b64Char (b % 16 * 4 + c / 64) :: b64Char (c % 64) :: b64encode rest

/-- Model of `base64.b64decode` over well-formed input: four characters at
a time, with `=` padding only in the final group. -/
def b64decode : List Char → Option (List Nat)
  | [] => some []
  | c1 :: c2 :: c3 :: c4 :: rest =>
    match b64Index c1, b64Index c2 with
    | some s1, some s2 =>
      if c3 = '=' then
        if c4 = '=' && rest.isEmpty then some [s1 * 4 + s2 / 16] else none
      else
        match b64Index c3 with
        | some s3 =>
          if c4 = '=' then
            if rest.isEmpty then some [s1 * 4 + s2 / 16, s2 % 16 * 16 + s3 / 4] else none
          else
            match b64Index c4 with
            | some s4 =>
              (b64decode rest).map
                (fun bs => (s1 * 4 + s2 / 16) :: (s2 % 16 * 16 + s3 / 4) :: (s3 % 4 * 64 + s4) :: bs)
            | none => none
        | none => none
    | _, _ => none
  | _ => none

/-- UTF-8 encoding of one code point (Python `chr(n).encode("utf-8")`). -/
def utf8EncodeChar (n : Nat) : List Nat :=
  if n < 0x80 then [n]
  else if n < 0x800 then [0xC0 + n / 64, 0x80 + n % 64]
  else if n < 0x10000 then [0xE0 + n / 4096, 0x80 + n / 64 % 64, 0x80 + n % 64]
  else [0xF0 + n / 262144, 0x80 + n / 4096 % 64, 0x80 + n / 64 % 64, 0x80 + n % 64]

/-- UTF-8 encoding of a code-point sequence (`str.encode("utf-8")`). -/
def utf8Encode (s : List Nat) : List Nat := (s.map utf8EncodeChar).flatten

/-- Decode one UTF-8 sequence with lead byte `b0` and following bytes
`rest`, returning the code point and the unconsumed remainder.  Strict
(`bytes.decode("utf-8")`): rejects bad lead or continuation bytes,
overlong forms, surrogates and values above `0x10FFFF`. -/
def utf8DecodeOne (b0 : Nat) (rest : List Nat) : Option (Nat × List Nat) :=
  if b0 < 0x80 then some (b0, rest)
  else if b0 < 0xC2 then none
  else if b0 < 0xE0 then
    match rest with
    | b1 :: rest2 =>
      if 0x80 ≤ b1 && b1 < 0xC0 then some ((b0 - 0xC0) * 64 + (b1 - 0x80), rest2)
      else none
    | [] => none
  else if b0 < 0xF0 then
    match rest with
    | b1 :: b2 :: rest2 =>
      if 0x80 ≤ b1 && b1 < 0xC0 && (0x80 ≤ b2 && b2 < 0xC0) then
        let cp := (b0 - 0xE0) * 4096 + (b1 - 0x80) * 64 + (b2 - 0x80)
        if cp < 0x800 || (0xD800 ≤ cp && cp < 0xE000) then none
        else some (cp, rest2)
      else none
    | _ => none
  else if b0 < 0xF5 then
    match rest with
    | b1 :: b2 :: b3 :: rest2 =>
      if 0x80 ≤ b1 && b1 < 0xC0 && (0x80 ≤ b2 && b2 < 0xC0) && (0x80 ≤ b3 && b3 < 0xC0) then
        let cp := (b0 - 0xF0) * 262144 + (b1 - 0x80) * 4096 + (b2 - 0x80) * 64 + (b3 - 0x80)
        if cp < 0x10000 || 0x110000 ≤ cp then none
        else some (cp, rest2)
      else none
    | _ => none
  else none

/-- A successful single-sequence decode consumes a suffix of the input. -/
theorem utf8DecodeOne_suffix (b0 : Nat) (rest : List Nat) (p : Nat × List Nat)
    (h : utf8DecodeOne b0 rest = some p) : p.2.length ≤ rest.length := by
  unfold utf8DecodeOne at h
  repeat' split at h
  all_goals try simp at h
  all_goals try obtain ⟨-, rfl⟩ := h
  all_goals try obtain rfl := h
  all_goals simp
  all_goals omega

/-- Strict UTF-8 decoding of a whole byte list
(`bytes.decode("utf-8")`). -/
def utf8Decode : List Nat → Option (List Nat)
  | [] => some []
  | b0 :: rest =>
    match hdo : utf8DecodeOne b0 rest with
    | some p => (utf8Decode p.2).map (fun cps => p.1 :: cps)
    | none => none
termination_by s => s.length
decreasing_by
  have := utf8DecodeOne_suffix b0 rest p hdo
  simp only [List.length_cons]
  omega

/-- UTF-8 bytes of a Lean-modelled Python string. -/
def utf8EncodeStr (s : Str) : List Nat := utf8Encode (s.map Char.toNat)

/-- Event passed to `record_event` (the fields relevant to body storage). -/
structure EventIn where
  ty : Str
  role : Str
  source : Str
  content : Option Str
  ts : Option Str

/-- Stored transcript event as appended by `record_event`: the `content`
key is replaced by `body_b64`, the timestamp is filled in and the source
falls back through `source or role or type or "unknown"`. -/
structure StoredEvent where
  ty : Str
  role : Str
  source : Str
  ts : Str
  bodyB64 : List Char

/-- Model of `SessionManager.record_event`'s construction of the stored
event (`nowTs` abstracts `_iso_now()`). -/
def recordEvent (nowTs : Str) (e : EventIn) : StoredEvent :=
  { ty := e.ty,
    role := e.role,
    source :=
      if e.source ≠ [] then e.source
      else if e.role ≠ [] then e.role
      else if e.ty ≠ [] then e.ty
      else "unknown".data,
    ts := e.ts.getD nowTs,
    bodyB64 := b64encode (utf8EncodeStr (e.content.getD [])) }

/-- The decoding pipeline of `get_transcript`:
`base64.b64decode(body_b64).decode("utf-8")`. -/
def decodeBody (b : List Char) : Option Str :=
  (b64decode b).bind (fun bytes => (utf8Decode bytes).map (fun cps => cps.map Char.ofNat))

/-! ## Summarizer (`normalize_summary` in `server.py`)

Note the source's escaping slip: inside raw strings, `r"```[\\s\\S]*?```"`
is a character class containing backslash, `s` and `S` (not "any
character"), and `r"\\s+"` matches a literal backslash followed by `s`
characters (not whitespace).  The model reproduces both. -/

/-- ASCII alphanumeric (`[A-Za-z0-9]`). -/
def isAlnumAscii (c : Char) : Bool :=
  ('A' ≤ c && c ≤ 'Z') || ('a' ≤ c && c ≤ 'z') || ('0' ≤ c && c ≤ '9')

/-- Characters of `[A-Za-z0-9_-]`. -/
def isWordChar (c : Char) : Bool := isAlnumAscii c || c = '_' || c = '-'

/-- Model of `re.findall(r"[A-Za-z0-9][A-Za-z0-9_-]+", s)`: maximal runs
of word characters starting with an alphanumeric, of length at least
two. -/
def findTokens : Str → List Str
  | [] => []
  | c :: rest =>
    if isAlnumAscii c then
      let run := rest.takeWhile isWordChar
      if run = [] then findTokens rest
      else (c :: run) :: findTokens (rest.drop run.length)
    else findTokens rest
termination_by s => s.length
decreasing_by
  all_goals simp [List.length_drop]
  all_goals omega

/-- The stopword set of `mentions_source`. -/
def stopwords : List Str :=
  ["the", "and", "with", "that", "this", "from", "into", "were", "then",
   "just", "only", "also", "have", "has", "had", "your", "you", "for",
   "are", "was", "will", "would", "could", "should", "about", "what",
   "when", "where", "which", "able", "make", "made", "over", "under",
   "after", "before", "onto", "been", "being", "more"].map String.data

/-- Model of `mentions_source(text, source)`: at least two of the first
twenty non-stopword keywords (length > 3) of the lowercased source occur
in the lowercased text; vacuously true without keywords. -/
def mentionsSource (text source : Str) : Bool :=
  let tokens := findTokens (pyLower source)
  let keywords := tokens.filter (fun t => !stopwords.contains t && decide (3 < t.length))
  if keywords = [] then true
  else
    let haystack := pyLower text
    decide (2 ≤ ((keywords.take 20).filter (fun k => hasSub k haystack)).length)

/-- Model of `re.findall(r"q([^q]{3,})q", s)` for a quote character `q`:
non-overlapping quoted spans of at least three characters, resuming at the
closing quote when a span is too short. -/
def findQuoted (q : Char) : Str → List Str
  | [] => []
  | c :: rest =>
    if c = q then
      let run := rest.takeWhile (fun x => x ≠ q)
      match hdr : rest.drop run.length with
      | [] => []
      | _ :: rest3 =>
        if 3 ≤ run.length then run :: findQuoted q rest3
        else findQuoted q (rest.drop run.length)
    else findQuoted q rest
termination_by s => s.length
decreasing_by
  all_goals
    first
      | (simp only [List.length_cons, List.length_drop]; omega)
      | (have h5 := congrArg List.length hdr
         simp only [List.length_drop, List.length_cons] at h5 ⊢
         omega)

/-- Model of `extract_required_phrases(source)`: double-quoted, then
single-quoted, then backtick-quoted spans. -/
def extractRequiredPhrases (source : Str) : List Str :=
  findQuoted '"' source ++ findQuoted '\'' source ++ findQuoted '`' source

/-- Model of `includes_required_phrases(text, source)`. -/
def includesRequiredPhrases (text source : Str) : Bool :=
  let phrases := extractRequiredPhrases source
  if phrases = [] then true
  else ((phrases.take 2).all (fun p => hasSub (pyLower p) (pyLower text)))

/-- Model of `has_format(text)`. -/
def hasFormat (text : Str) : Bool :=
  "I did".data.isPrefixOf (pyStrip text) && hasSub "I learned".data text &&
    hasSub "Next".data text

/-- The (buggy) character class `[\\s\\S]` of the code-block patterns:
backslash, `s` or `S`. -/
def cbClass (c : Char) : Bool := c = '\\' || c = 's' || c = 'S'

/-- Lazy scan after an opening triple backtick: the shortest run of
`cbClass` characters followed by a closing triple backtick. -/
def cbScanInner : Str → Option (Str × Str)
  | [] => none
  | c :: rest =>
    if "```".data.isPrefixOf (c :: rest) then some ([], (c :: rest).drop 3)
    else if cbClass c then (cbScanInner rest).map (fun p => (c :: p.1, p.2))
    else none

/-- Auxiliary length bound for the code-block scanner's termination. -/
theorem cbScanInner_length :
    ∀ s i a, cbScanInner s = some (i, a) → a.length + 3 ≤ s.length := by
  intro s
  induction s with
  | nil =>
    intro i a h
    simp [cbScanInner] at h
  | cons c rest ih =>
    intro i a h
    rw [cbScanInner] at h
    by_cases hp : "```".data.isPrefixOf (c :: rest) = true
    · rw [if_pos hp] at h
      simp only [Option.some.injEq, Prod.mk.injEq] at h
      obtain ⟨-, ha⟩ := h
      rw [← ha]
      have h3 : 3 ≤ (c :: rest).length := by
        have := List.IsPrefix.length_le ( List.isPrefixOf_iff_prefix.mp hp)
        simpa using this
      simp only [List.length_drop]
      omega
    · rw [if_neg hp] at h
      by_cases hc : cbClass c = true
      · rw [if_pos hc] at h
        cases hsc : cbScanInner rest with
        | none => rw [hsc] at h; simp at h
        | some p =>
          rw [hsc] at h
          simp only [Option.map, Option.some.injEq, Prod.mk.injEq] at h
          obtain ⟨-, ha⟩ := h
          rw [← ha]
          have := ih p.1 p.2 (by rw [hsc])
          simp only [List.length_cons]
          omega
      · rw [if_neg hc] at h
        simp at h

/-- Model of `len(re.findall(r"```[\\s\\S]*?```", s))` together with
`re.sub(r"```[\\s\\S]*?```", " code block ", s)` in one scan. -/
def cbReplace : Str → Nat × Str
  | [] => (0, [])
  | c :: rest =>
    if "```".data.isPrefixOf (c :: rest) then
      match hsc : cbScanInner ((c :: rest).drop 3) with
      | some p =>
        let r := cbReplace p.2
        (r.1 + 1, " code block ".data ++ r.2)
      | none =>
        let r := cbReplace rest
        (r.1, c :: r.2)
    else
      let r := cbReplace rest
      (r.1, c :: r.2)
termination_by s => s.length
decreasing_by
  all_goals
    first
      | (simp only [List.length_cons]; omega)
      | (have h1 := cbScanInner_length _ _ _ hsc
         simp only [List.length_drop, List.length_cons] at h1 ⊢
         omega)

/-- Model of `re.sub(r"\\s+", " ", s)`: each literal backslash followed by
a nonempty run of `s` characters becomes a single space. -/
def bsReplace : Str → Str
  | [] => []
  | c :: rest =>
    if c = '\\' then
      let run := rest.takeWhile (fun x => x = 's')
      if run = [] then c :: bsReplace rest
      else ' ' :: bsReplace (rest.drop run.length)
    else c :: bsReplace rest
termination_by s => s.length
decreasing_by
  all_goals simp [List.length_drop]
  all_goals omega

/-- Decimal rendering of a count (Python f-string interpolation). -/
def natToStr (n : Nat) : Str := (toString n).data

/-- Model of the deterministic fallback branch of `normalize_summary`. -/
def fallbackSummary (sourceText : Str) : Str :=
  let r := cbReplace sourceText
  let clean := pyStrip (bsReplace r.2)
  let words := (pySplit clean).take 12
  let snippet := if words = [] then "the current task context".data
                 else List.intercalate " ".data words
  let blockPhrase := if r.1 ≠ 0 then natToStr r.1 ++ " code block(s)".data
                     else "no code blocks".data
  "I did review the response and noted ".data ++ blockPhrase ++
    ".\nI learned ".data ++ snippet ++
    ".\nNext validate the output and iterate on any remaining gaps.".data

/-- Model of `normalize_summary(raw_summary, source_text)`: pass the raw
reply through when it is nonempty, has the required shape and mentions the
source; otherwise produce the deterministic fallback. -/
def normalizeSummary (rawSummary sourceText : Str) : Str :=
  if rawSummary ≠ [] && hasFormat rawSummary && mentionsSource rawSummary sourceText &&
      includesRequiredPhrases rawSummary sourceText then
    pyStrip rawSummary
  else fallbackSummary sourceText

/-! ## Transcript aggregation (`SessionManager._aggregate_transcript`) -/

/-- Decoded transcript event, with the fields the aggregation reads
(`timestamp = none` models an absent key). -/
structure TEvent where
  ty : Str
  role : Str
  source : Str
  content : Str
  timestamp : Option Str
deriving DecidableEq, Repr

/-- The grouping key `(type, role, source)`. -/
def aggKey (e : TEvent) : Str × Str × Str := (e.ty, e.role, e.source)

/-- Types whose consecutive events are merged. -/
def mergeableTy (t : Str) : Bool :=
  t = "assistant".data || t = "detail".data || t = "system".data

/-- Leading characters after which `merge_text` joins without a space. -/
def mergePunct : List Char :=
  [' ', '\n', '\t', '\'', '.', ',', '!', '?', ':', ';', ')', ']', '}', '%']

/-- Model of `merge_text(prev, nxt)`. -/
def mergeText (prev nxt : Str) : Str :=
  if prev = [] then nxt
  else if nxt = [] then prev
  else if prev.getLast? = some '\n' || prev.getLast? = some ' ' then prev ++ nxt
  else
    match nxt.head? with
    | some c => if mergePunct.contains c then prev ++ nxt else prev ++ ' ' :: nxt
    | none => prev ++ ' ' :: nxt

/-- Merge a following event into the buffered event, updating content and
the buffered timestamp (`event.get("timestamp", buffer_timestamp)`). -/
def mergeInto (b e : TEvent) : TEvent :=
  { b with
    content := mergeText b.content e.content,
    timestamp := match e.timestamp with
      | some t => some t
      | none => b.timestamp }

/-- Model of the event loop of `_aggregate_transcript`, with the buffered
event as explicit state: events with empty content are skipped, an event
matching the buffer's key with a mergeable type is merged, and otherwise
the buffer is flushed. -/
def aggregateAux : Option TEvent → List TEvent → List TEvent
  | none, [] => []
  | some b, [] => [b]
  | buf, e :: rest =>
    if e.content = [] then aggregateAux buf rest
    else
      match buf with
      | some b =>
        if aggKey b = aggKey e ∧ mergeableTy e.ty then aggregateAux (some (mergeInto b e)) rest
        else b :: aggregateAux (some e) rest
      | none => aggregateAux (some e) rest

/-- Model of `_aggregate_transcript(events)`. -/
def aggregateTranscript (events : List TEvent) : List TEvent := aggregateAux none events

/-- Maximal runs of consecutive events sharing `aggKey` (claim-side
reformulation used to characterize the aggregation). -/
def chunkByKey : List TEvent → List (List TEvent)
  | [] => []
  | e :: rest =>
    (e :: rest.takeWhile (fun x => aggKey x = aggKey e)) ::
      chunkByKey (rest.drop (rest.takeWhile (fun x => aggKey x = aggKey e)).length)
termination_by s => s.length
decreasing_by
  all_goals simp [List.length_drop]
  all_goals omega

/-- Fold a whole run into its first event via `mergeInto`. -/
def mergeRun (e : TEvent) (rest : List TEvent) : TEvent := rest.foldl mergeInto e

/-- Claim-side specification of the aggregation, written from the amended
spec sentence: drop empty-content events, group consecutive events by
`(type, role, source)`, collapse mergeable-type runs into one merged
event, and keep all other events as they are. -/
def aggregateSpec (events : List TEvent) : List TEvent :=
  ((chunkByKey (events.filter (fun e => e.content ≠ []))).map
    (fun run =>
      match run with
      | [] => []
      | e :: rest => if mergeableTy e.ty then [mergeRun e rest] else e :: rest)).flatten

/-! ## Coder event loop (`CoderAgent.run` in `coder_agent.py`)

The loop is driven by successive LLM replies; the model takes the list of
replies as input (an empty list ends the run) and a tool-execution oracle
`exec` standing for `_run_tool`.  Tag-parsed tool calls are modelled for
plain-text `<tool_call>` blocks (the JSON-payload and `<function=` forms
only change the parsed name and arguments, not the `tag_i` id
assignment). -/

/-- Event types emitted by the Coder loop. -/
inductive EvType where
  | planning
  | assistant
  | result
  | system
  | toolCall
  | toolResult
  | error
deriving DecidableEq, Repr

/-- Emitted Coder event (the fields the claims speak about). -/
structure CEvent where
  ty : EvType
  content : Str
  callId : Option Str := none
  toolName : Option Str := none
  success : Option Bool := none
deriving DecidableEq, Repr

/-- A tool call as produced by `_normalize_tool_calls` or
`_parse_tool_tags`: an optional id, a tool name and raw arguments. -/
structure RawCall where
  id? : Option Str
  name : Str
  args : Str
deriving DecidableEq, Repr

/-- One LLM reply: assistant content and structured tool calls. -/
structure Reply where
  content : Str
  toolCalls : List RawCall
deriving DecidableEq, Repr

/-- Fuel-bounded scan for `re.findall(r"<tool_call>([\s\S]*?)</tool_call>", content)`:
each match consumes at least one character, so fuel `s.length + 1` never
runs out. -/
def findToolBlocksF : Nat → Str → List Str
  | 0, _ => []
  | fuel + 1, s =>
    match splitFirst "<tool_call>".data s with
    | none => []
    | some p =>
      match splitFirst "</tool_call>".data p.2 with
      | none => []
      | some q => q.1 :: findToolBlocksF fuel q.2

/-- Model of `re.findall(r"<tool_call>([\s\S]*?)</tool_call>", content)`. -/
def findToolBlocks (s : Str) : List Str := findToolBlocksF (s.length + 1) s

/-- Model of `_parse_tool_tags` on plain-text `<tool_call>` blocks: each
nonempty stripped block becomes a `shell` call whose id is
`"tag_"` followed by the number of calls parsed so far. -/
def parseToolTags (content : Str) : List RawCall :=
  (findToolBlocks content).foldl
    (fun calls block =>
      let text := pyStrip block
      if text = [] then calls
      else calls ++ [{ id? := some ("tag_".data ++ natToStr calls.length),
                       name := "shell".data, args := text }])
    []

/-- Fuel-bounded removal of tag-delimited blocks (`re.sub` with an empty
replacement); each removal consumes at least one character, so fuel
`s.length + 1` never runs out. -/
def removeBlocksF (op cl : Str) : Nat → Str → Str
  | 0, s => s
  | _, [] => []
  | fuel + 1, c :: rest =>
    if op.isPrefixOf (c :: rest) then
      match splitFirst cl ((c :: rest).drop op.length) with
      | some q => removeBlocksF op cl fuel q.2
      | none => c :: removeBlocksF op cl fuel rest
    else c :: removeBlocksF op cl fuel rest

/-- Remove every `<tool_call>...</tool_call>` block
(`_strip_tool_tags`). -/
def removeToolBlocks (s : Str) : Str :=
  removeBlocksF "<tool_call>".data "</tool_call>".data (s.length + 1) s

/-- Remove every `<think>...</think>` block (the `re.sub` after think
extraction). -/
def removeThinkBlocks (s : Str) : Str :=
  removeBlocksF "<think>".data "</think>".data (s.length + 1) s

/-- The `call_id` assignment: `call.get("id") or f"{task_id}_call_{n}"`
(a present but empty id is falsy and also falls back to the counter). -/
def callIdOf (taskId : Str) (counter : Nat) (c : RawCall) : Str :=
  match c.id? with
  | some i => if i = [] then taskId ++ "_call_".data ++ natToStr counter else i
  | none => taskId ++ "_call_".data ++ natToStr counter

/-- Execute one batch of tool calls: for each call emit a `tool_call`
event and then exactly one `tool_result` event with the same `call_id`,
both when `exec` returns a result and when it raises. -/
def runToolCalls (exec : Str → Str → Except Str Str) (taskId : Str) :
    Nat → List RawCall → List CEvent
  | _, [] => []
  | counter, c :: more =>
    let cid := callIdOf taskId (counter + 1) c
    let callEv : CEvent :=
      { ty := .toolCall, content := c.args, callId := some cid, toolName := some c.name }
    let resEv : CEvent :=
      match exec c.name c.args with
      | .ok out =>
        { ty := .toolResult, content := out, callId := some cid,
          toolName := some c.name, success := some true }
      | .error msg =>
        { ty := .toolResult, content := msg, callId := some cid,
          toolName := some c.name, success := some false }
    callEv :: resEv :: runToolCalls exec taskId (counter + 1) more

/-- Model of the `while steps_remaining > 0` loop of `CoderAgent.run`:
process one LLM reply per iteration — normalize or tag-parse tool calls,
emit `planning`/`assistant`/`result`/`system` events, then run the tool
calls — and stop when a final reply or the step budget ends the run. -/
def coderLoop (exec : Str → Str → Except Str Str) (taskId : Str) :
    List Reply → Nat → Nat → List CEvent
  | _, 0, _ => [{ ty := .error,
                  content := "Coder stopped after too many steps without completing the task.".data }]
  | [], _ + 1, _ => []
  | r :: more, steps + 1, counter =>
    let tagged := r.toolCalls = [] && hasSub "<tool_call>".data r.content
    let tcalls := if r.toolCalls ≠ [] then r.toolCalls
                  else if tagged then parseToolTags r.content else []
    let c0 := if tagged then pyStrip (removeToolBlocks r.content) else r.content
    let planEvs : List CEvent :=
      match extractTag "<think>".data "</think>".data c0 with
      | some think => [{ ty := .planning, content := pyStrip think }]
      | none => []
    let content := if (extractTag "<think>".data "</think>".data c0).isSome
                   then pyStrip (removeThinkBlocks c0) else c0
    let contentEvs : List CEvent :=
      if content ≠ [] then [{ ty := .assistant, content := content }] else []
    if content ≠ [] && tcalls.isEmpty then
      planEvs ++ contentEvs ++
        (match parseResultXml content with
         | some res => [{ ty := .result, content := res.summary }]
         | none => [])
    else if tcalls.isEmpty then
      planEvs ++ contentEvs ++
        [{ ty := .system,
           content := "Coder returned no tool calls or final response. Stopping.".data }]
    else
      planEvs ++ contentEvs ++ runToolCalls exec taskId counter tcalls ++
        coderLoop exec taskId more steps (counter + tcalls.length)

/-- Model of `CoderAgent.run` (default `max_steps = 30`). -/
def coderRun (exec : Str → Str → Except Str Str) (taskId : Str)
    (replies : List Reply) : List CEvent :=
  coderLoop exec taskId replies 30 0

/-! ## Theorems -/

theorem hasSub_iff (n : Str) : ∀ h : Str, hasSub n h = true ↔ n <:+: h := by
  intro h
  induction h with
  | nil => simp [hasSub, List.isEmpty_iff]
  | cons c rest ih =>
    simp [hasSub, List.infix_cons_iff, ih, List.isPrefixOf_iff_prefix]

/-- C1: the confinement check of `_resolve_path` is a plain string-prefix
test on the rendered paths, so with session cwd `/tmp/foo` the relative
input `../foobar` resolves to the sibling directory `/tmp/foobar` — not a
descendant of the cwd — yet the resolution succeeds instead of raising,
contradicting the claim that every escaping path is a hard error. -/
theorem C1_resolve_path_accepts_escape :
    (resolvePath "/tmp/foo".data "../foobar".data).toOption =
      some ["tmp".data, "foobar".data] ∧
    isDescendant ["tmp".data, "foobar".data]
      (normComps (pathComps "/tmp/foo".data)) = false := by
  constructor
  · rfl
  · rfl

/-- C2: when the model emits plain-text `<tool_call>` blocks in two
successive replies, `_parse_tool_tags` restarts its `tag_i` numbering on
each iteration, so both emitted `tool_call` events (and both `tool_result`
events) carry `call_id = "tag_0"` — the second `tool_result`'s `call_id`
matches two prior `tool_call` events, not exactly one. -/
theorem C2_duplicate_call_ids :
    ((coderRun (fun n a => .ok (n ++ a)) "task_1".data
        [{ content := "<tool_call>ls</tool_call>".data, toolCalls := [] },
         { content := "<tool_call>pwd</tool_call>".data, toolCalls := [] }]).filterMap
      (fun e => if e.ty = .toolCall then e.callId else none) =
        ["tag_0".data, "tag_0".data]) ∧
    ((coderRun (fun n a => .ok (n ++ a)) "task_1".data
        [{ content := "<tool_call>ls</tool_call>".data, toolCalls := [] },
         { content := "<tool_call>pwd</tool_call>".data, toolCalls := [] }]).filterMap
      (fun e => if e.ty = .toolResult then e.callId else none) =
        ["tag_0".data, "tag_0".data]) := by
  constructor
  · rfl
  · rfl

/-- C3 counterexample: on an empty raw LLM reply and empty input text the
normalizer returns the deterministic fallback, whose third sentence ends
with a period — it contains no question mark at all — refuting the claim
that the third sentence always ends with a question mark. -/
theorem C3_counterexample :
    hasSub "?".data (normalizeSummary [] []) = false ∧
    (normalizeSummary [] []).getLast? = some '.' := by
  have hcb : cbReplace [] = (0, []) := by simp [cbReplace]
  have hbs : bsReplace [] = [] := by simp [bsReplace]
  have hps : pySplit [] = [] := by simp [pySplit]
  have h1 : normalizeSummary [] [] =
      ("I did review the response and noted no code blocks.\n" ++
       "I learned the current task context.\n" ++
       "Next validate the output and iterate on any remaining gaps.").data := by
    simp [normalizeSummary, fallbackSummary, hcb, hbs, hps,
      show pyStrip ([] : Str) = [] from rfl]
  rw [h1]
  constructor
  · rfl
  · rfl

/-- An infix whose head the predicate rejects survives `dropWhile`. -/
theorem infix_dropWhile_of_head (p : Char → Bool) (c : Char) (x' l : Str)
    (hc : p c = false) (h : (c :: x') <:+: l) : (c :: x') <:+: l.dropWhile p := by
  obtain ⟨s, t, rfl⟩ := h
  induction s with
  | nil =>
    simp only [List.nil_append, List.cons_append, List.dropWhile_cons, hc]
    simp only [Bool.false_eq_true, if_false]
    exact ⟨[], t, by simp⟩
  | cons a s ih =>
    by_cases hpa : p a = true
    · simpa [List.dropWhile_cons, hpa] using ih
    · have hd : ((a :: s) ++ (c :: x') ++ t).dropWhile p = (a :: s) ++ (c :: x') ++ t := by
        simp [List.dropWhile_cons, hpa]
      rw [hd]
      exact ⟨a :: s, t, rfl⟩

/-- An infix whose first and last characters are not whitespace survives
`pyStrip`. -/
theorem infix_pyStrip (x l : Str)
    (h1 : x.head?.all (fun c => !pyWs c) = true)
    (h2 : x.getLast?.all (fun c => !pyWs c) = true)
    (h : x <:+: l) : x <:+: pyStrip l := by
  cases hx : x with
  | nil => exact List.nil_infix
  | cons c x' =>
    subst hx
    have hc : pyWs c = false := by simpa using h1
    have step1 : (c :: x') <:+: l.dropWhile pyWs := infix_dropWhile_of_head pyWs c x' l hc h
    obtain ⟨d, y, hrev⟩ : ∃ d y, (c :: x').reverse = d :: y := by
      cases hre : (c :: x').reverse with
      | nil => exact absurd (congrArg List.length hre) (by simp)
      | cons d y => exact ⟨d, y, rfl⟩
    have hd : pyWs d = false := by
      have hgl : (c :: x').getLast? = some d := by
        rw [← List.head?_reverse, hrev]
        rfl
      rw [hgl] at h2
      simpa using h2
    have step2 : (d :: y) <:+: (l.dropWhile pyWs).reverse := by
      rw [← hrev]
      exact ( List.reverse_infix).mpr step1
    have step3 : (d :: y) <:+: ((l.dropWhile pyWs).reverse).dropWhile pyWs :=
      infix_dropWhile_of_head pyWs d y _ hd step2
    show (c :: x') <:+: (((l.dropWhile pyWs).reverse).dropWhile pyWs).reverse
    refine ( List.reverse_infix).mp ?_
    rw [List.reverse_reverse, hrev]
    exact step3

/-- Substring preservation through `str.strip()` (Boolean form). -/
theorem hasSub_pyStrip (x l : Str)
    (h1 : x.head?.all (fun c => !pyWs c) = true)
    (h2 : x.getLast?.all (fun c => !pyWs c) = true)
    (h : hasSub x l = true) : hasSub x (pyStrip l) = true := by
  rw [hasSub_iff] at h ⊢
  exact infix_pyStrip x l h1 h2 h

/-- C3 (amended): on every input text and every raw LLM reply the
normalized summary begins with `"I did"` and contains `"I learned"` and
`"Next"` — both when the raw reply passes the shape and relevance checks
(it is returned stripped) and when the deterministic fallback is
produced. -/
theorem C3_summary_shape (raw src : Str) :
    "I did".data.isPrefixOf (normalizeSummary raw src) = true ∧
    hasSub "I learned".data (normalizeSummary raw src) = true ∧
    hasSub "Next".data (normalizeSummary raw src) = true := by
  unfold normalizeSummary
  split
  · rename_i h
    simp only [Bool.and_eq_true] at h
    obtain ⟨⟨⟨-, hfmt⟩, -⟩, -⟩ := h
    rw [hasFormat] at hfmt
    simp only [Bool.and_eq_true] at hfmt
    obtain ⟨⟨hdid, hlearn⟩, hnext⟩ := hfmt
    refine ⟨hdid, ?_, ?_⟩
    · exact hasSub_pyStrip "I learned".data raw (by decide) (by decide) hlearn
    · exact hasSub_pyStrip "Next".data raw (by decide) (by decide) hnext
  · obtain ⟨bp, sn, heq⟩ : ∃ bp sn, fallbackSummary src =
        "I did review the response and noted ".data ++ bp ++ ".\nI learned ".data ++ sn ++
          ".\nNext validate the output and iterate on any remaining gaps.".data :=
      ⟨_, _, rfl⟩
    rw [heq]
    refine ⟨?_, ?_, ?_⟩
    · rw [ List.isPrefixOf_iff_prefix]
      refine List.IsPrefix.trans
        (( List.isPrefixOf_iff_prefix).mp (by decide) :
          "I did".data <+: "I did review the response and noted ".data) ?_
      exact ⟨bp ++ ".\nI learned ".data ++ sn ++
        ".\nNext validate the output and iterate on any remaining gaps.".data,
        by simp [List.append_assoc]⟩
    · rw [hasSub_iff]
      refine List.IsInfix.trans ((hasSub_iff _ _).mp (by decide) :
        "I learned".data <:+: ".\nI learned ".data) ?_
      exact ⟨"I did review the response and noted ".data ++ bp,
        sn ++ ".\nNext validate the output and iterate on any remaining gaps.".data,
        by simp [List.append_assoc]⟩
    · rw [hasSub_iff]
      refine List.IsInfix.trans ((hasSub_iff _ _).mp (by decide) :
        "Next".data <:+: ".\nNext validate the output and iterate on any remaining gaps.".data) ?_
      exact ⟨"I did review the response and noted ".data ++ bp ++ ".\nI learned ".data ++ sn,
        [], by simp [List.append_assoc]⟩

theorem aggKey_mergeInto (b e : TEvent) : aggKey (mergeInto b e) = aggKey b := rfl

theorem aggKey_mergeRun : ∀ (run : List TEvent) (b : TEvent),
    aggKey (mergeRun b run) = aggKey b := by
  intro run
  induction run with
  | nil => intro b; rfl
  | cons x run' ih =>
    intro b
    show aggKey (mergeRun (mergeInto b x) run') = aggKey b
    rw [ih, aggKey_mergeInto]

/-- Dropping the length of the `takeWhile` prefix is `dropWhile`. -/
theorem drop_len_takeWhile {α : Type} (p : α → Bool) :
    ∀ l : List α, l.drop (l.takeWhile p).length = l.dropWhile p := by
  intro l
  induction l with
  | nil => rfl
  | cons a l ih =>
    by_cases hpa : p a = true
    · simp [List.takeWhile_cons, List.dropWhile_cons, hpa, ih]
    · simp [List.takeWhile_cons, List.dropWhile_cons, hpa]

/-- The head of `dropWhile` fails the predicate. -/
theorem dropWhile_head_not {α : Type} (p : α → Bool) :
    ∀ l : List α, l.dropWhile p = [] ∨
      ∃ y l2, l.dropWhile p = y :: l2 ∧ p y = false := by
  intro l
  induction l with
  | nil => exact Or.inl rfl
  | cons a l ih =>
    by_cases hpa : p a = true
    · simpa [List.dropWhile_cons, hpa] using ih
    · right
      exact ⟨a, l, by simp [List.dropWhile_cons, hpa], by simpa using hpa⟩

/-- Flushing: when the next event (if any) cannot be merged into the
buffer, the buffered event is emitted in front. -/
theorem agg_flush (b : TEvent) (l : List TEvent)
    (hl : l = [] ∨ ∃ y l2, l = y :: l2 ∧ y.content ≠ [] ∧
      ¬(aggKey b = aggKey y ∧ mergeableTy y.ty = true)) :
    aggregateAux (some b) l = b :: aggregateAux none l := by
  rcases hl with rfl | ⟨y, l2, rfl, hy, hcond⟩
  · rfl
  · simp only [aggregateAux, if_neg hy]
    rw [if_neg hcond]

/-- Merging a whole run of equal-key mergeable events accumulates them
into the buffer. -/
theorem agg_merge_run : ∀ (run : List TEvent) (b : TEvent) (rest2 : List TEvent),
    mergeableTy b.ty = true →
    (∀ x ∈ run, aggKey x = aggKey b) → (∀ x ∈ run, x.content ≠ []) →
    aggregateAux (some b) (run ++ rest2) = aggregateAux (some (mergeRun b run)) rest2 := by
  intro run
  induction run with
  | nil => intro b rest2 _ _ _; rfl
  | cons x run' ih =>
    intro b rest2 hb hk hc
    have hx : x.content ≠ [] := hc x (by simp)
    have hkx : aggKey x = aggKey b := hk x (by simp)
    have hty : mergeableTy x.ty = true := by
      have hfst : x.ty = b.ty := congrArg (fun q => q.1) hkx
      rw [hfst]
      exact hb
    show aggregateAux (some b) (x :: (run' ++ rest2)) = _
    simp only [aggregateAux, if_neg hx]
    rw [if_pos ⟨hkx.symm, hty⟩]
    have := ih (mergeInto b x) rest2 (by simpa [mergeInto] using hb)
      (fun y hy => by rw [aggKey_mergeInto]; exact hk y (by simp [hy]))
      (fun y hy => hc y (by simp [hy]))
    exact this

/-- A run of equal-key non-mergeable events is emitted one by one. -/
theorem agg_nonmerge_run : ∀ (run : List TEvent) (b : TEvent) (rest2 : List TEvent),
    mergeableTy b.ty = false →
    (∀ x ∈ run, aggKey x = aggKey b) → (∀ x ∈ run, x.content ≠ []) →
    (rest2 = [] ∨ ∃ y l2, rest2 = y :: l2 ∧ y.content ≠ [] ∧ aggKey y ≠ aggKey b) →
    aggregateAux (some b) (run ++ rest2) = (b :: run) ++ aggregateAux none rest2 := by
  intro run
  induction run with
  | nil =>
    intro b rest2 _ _ _ hr
    refine agg_flush b rest2 ?_
    rcases hr with rfl | ⟨y, l2, rfl, hy, hne⟩
    · exact Or.inl rfl
    · exact Or.inr ⟨y, l2, rfl, hy, fun hco => hne (hco.1.symm)⟩
  | cons x run' ih =>
    intro b rest2 hb hk hc hr
    have hx : x.content ≠ [] := hc x (by simp)
    have hkx : aggKey x = aggKey b := hk x (by simp)
    have hty : mergeableTy x.ty = false := by
      have hfst : x.ty = b.ty := congrArg (fun q => q.1) hkx
      rw [hfst]
      exact hb
    show aggregateAux (some b) (x :: (run' ++ rest2)) = _
    simp only [aggregateAux, if_neg hx]
    rw [if_neg (fun hco => by rw [hty] at hco; exact absurd hco.2 (by simp))]
    have hstep := ih x rest2 hty
      (fun y hy => (hk y (by simp [hy])).trans hkx.symm)
      (fun y hy => hc y (by simp [hy]))
      (by
        rcases hr with rfl | ⟨y, l2, rfl, hy, hne⟩
        · exact Or.inl rfl
        · exact Or.inr ⟨y, l2, rfl, hy, fun hq => hne (hq.trans hkx)⟩)
    rw [hstep]
    rfl

/-- Aggregation over a list of nonempty-content events equals the
chunk-and-collapse specification. -/
theorem aggregateAux_none_eq_spec : ∀ (N : Nat) (l : List TEvent), l.length ≤ N →
    (∀ e ∈ l, e.content ≠ []) →
    aggregateAux none l =
      ((chunkByKey l).map (fun run =>
        match run with
        | [] => []
        | e :: rest => if mergeableTy e.ty then [mergeRun e rest] else e :: rest)).flatten := by
  intro N
  induction N with
  | zero =>
    intro l hl _
    have hnil : l = [] := List.length_eq_zero.mp (Nat.le_zero.mp hl)
    subst hnil
    simp [aggregateAux, chunkByKey]
  | succ N ihN =>
    intro l hl hc
    cases l with
    | nil => simp [aggregateAux, chunkByKey]
    | cons e rest =>
      have he : e.content ≠ [] := hc e (by simp)
      have hck : chunkByKey (e :: rest) =
          (e :: rest.takeWhile (fun x => aggKey x = aggKey e)) ::
            chunkByKey (rest.drop (rest.takeWhile (fun x => aggKey x = aggKey e)).length) := by
        simp only [chunkByKey]
      have hdw : rest.drop (rest.takeWhile (fun x => decide (aggKey x = aggKey e))).length =
          rest.dropWhile (fun x => decide (aggKey x = aggKey e)) :=
        drop_len_takeWhile _ rest
      have hsplit : rest.takeWhile (fun x => decide (aggKey x = aggKey e)) ++
          rest.dropWhile (fun x => decide (aggKey x = aggKey e)) = rest :=
        List.takeWhile_append_dropWhile _ _
      have hkeys : ∀ x ∈ rest.takeWhile (fun x => decide (aggKey x = aggKey e)),
          aggKey x = aggKey e := by
        intro x hx
        have := List.mem_takeWhile_imp hx
        simpa using this
      have hcrun : ∀ x ∈ rest.takeWhile (fun x => decide (aggKey x = aggKey e)),
          x.content ≠ [] := by
        intro x hx
        exact hc x (by
          have := List.takeWhile_sublist (l := rest) (fun x => decide (aggKey x = aggKey e))
          exact List.mem_cons_of_mem e (this.mem hx))
      have hcdrop : ∀ x ∈ rest.dropWhile (fun x => decide (aggKey x = aggKey e)),
          x.content ≠ [] := by
        intro x hx
        exact hc x (by
          have := List.dropWhile_sublist (l := rest) (fun x => decide (aggKey x = aggKey e))
          exact List.mem_cons_of_mem e (this.mem hx))
      have hbound : rest.dropWhile (fun x => decide (aggKey x = aggKey e)) = [] ∨
          ∃ y l2, rest.dropWhile (fun x => decide (aggKey x = aggKey e)) = y :: l2 ∧
            y.content ≠ [] ∧ aggKey y ≠ aggKey e := by
        rcases dropWhile_head_not (fun x => decide (aggKey x = aggKey e)) rest with hcase | ⟨y, l2, hcase, hpy⟩
        · exact Or.inl hcase
        · refine Or.inr ⟨y, l2, hcase, ?_, by simpa using hpy⟩
          exact hcdrop y (by rw [hcase]; simp)
      have hdlen : (rest.dropWhile (fun x => decide (aggKey x = aggKey e))).length ≤ N := by
        have h1 := (List.dropWhile_sublist (l := rest)
          (fun x => decide (aggKey x = aggKey e))).length_le
        have h2 : rest.length ≤ N := by
          simp only [List.length_cons] at hl
          omega
        omega
      have hstart : aggregateAux none (e :: rest) = aggregateAux (some e) rest := by
        simp only [aggregateAux, if_neg he]
      rw [hstart, hck, hdw]
      conv_lhs => rw [← hsplit]
      by_cases hm : mergeableTy e.ty = true
      · rw [agg_merge_run _ e _ hm hkeys hcrun]
        rw [agg_flush _ _ (by
          rcases hbound with hcase | ⟨y, l2, hcase, hy, hne⟩
          · exact Or.inl hcase
          · refine Or.inr ⟨y, l2, hcase, hy, fun hco => hne ?_⟩
            rw [← hco.1, aggKey_mergeRun]) ]
        rw [ihN _ hdlen hcdrop]
        simp [hm]
      · have hm2 : mergeableTy e.ty = false := by
          cases hq : mergeableTy e.ty with
          | false => rfl
          | true => exact absurd hq hm
        rw [agg_nonmerge_run _ e _ hm2 hkeys hcrun hbound]
        rw [ihN _ hdlen hcdrop]
        simp [hm2]

/-- Empty-content events are skipped: aggregation only sees the filtered
list. -/
theorem aggregateAux_filter : ∀ (l : List TEvent) (buf : Option TEvent),
    aggregateAux buf l = aggregateAux buf (l.filter (fun e => e.content ≠ [])) := by
  intro l
  induction l with
  | nil => intro buf; rfl
  | cons e rest ih =>
    intro buf
    by_cases hcc : e.content = []
    · have hf : (e :: rest).filter (fun e => decide (e.content ≠ [])) =
          rest.filter (fun e => decide (e.content ≠ [])) := by
        simp [List.filter_cons, hcc]
      rw [hf]
      cases buf with
      | none =>
        simp only [aggregateAux, if_pos hcc]
        exact ih none
      | some b =>
        simp only [aggregateAux, if_pos hcc]
        exact ih (some b)
    · have hf : (e :: rest).filter (fun e => decide (e.content ≠ [])) =
          e :: rest.filter (fun e => decide (e.content ≠ [])) := by
        simp [List.filter_cons, hcc]
      rw [hf]
      cases buf with
      | none =>
        simp only [aggregateAux, if_neg hcc]
        exact ih (some e)
      | some b =>
        simp only [aggregateAux, if_neg hcc]
        by_cases hco : aggKey b = aggKey e ∧ mergeableTy e.ty = true
        · rw [if_pos hco, if_pos hco]
          exact ih (some (mergeInto b e))
        · rw [if_neg hco, if_neg hco]
          rw [ih (some e)]

/-- C5 (amended): the aggregation equals the specification that drops
empty-content events, groups the rest into maximal consecutive
equal-`(type, role, source)` runs, collapses each mergeable-type run into
one whitespace-aware merged event, and keeps every other event as-is. -/
theorem C5_aggregate_characterization (events : List TEvent) :
    aggregateTranscript events = aggregateSpec events := by
  rw [aggregateTranscript, aggregateSpec, aggregateAux_filter]
  exact aggregateAux_none_eq_spec (events.filter (fun e => e.content ≠ [])).length _ le_rfl
    (fun e he => by
      have := List.of_mem_filter he
      simpa using this)

/-- C5 counterexample: an empty-content `tool_call` event between two
`assistant` events is silently dropped and the two `assistant` events are
merged across it, so a non-mergeable-type event is not preserved and the
boundary sequence of the raw list is not preserved either. -/
theorem C5_counterexample :
    aggregateTranscript
      [{ ty := "assistant".data, role := "coder".data, source := "coder".data,
         content := "Hello.".data, timestamp := none },
       { ty := "tool_call".data, role := "system".data, source := "coder".data,
         content := [], timestamp := none },
       { ty := "assistant".data, role := "coder".data, source := "coder".data,
         content := "World".data, timestamp := none }] =
      [{ ty := "assistant".data, role := "coder".data, source := "coder".data,
         content := "Hello. World".data, timestamp := none }] := by
  rfl

/-- C6: whenever `parse_plan_xml` finds no plan (returns `None`),
`decompose_intent` returns the fabricated fallback plan: intent and single
task description echo the user text, confidence is `0.5`, and there is no
clarification question. -/
theorem C6_fallback_plan (response userText : Str)
    (h : parsePlanXml response = .ok none) :
    decomposeIntent response userText =
      .ok { intent := userText,
            confidence := 1/2,
            tasks := [{ id := "1".data,
                        description := userText,
                        successCriteria := "Task completed without errors".data,
                        dependencies := [] }],
            needsClarification := none } := by
  unfold decomposeIntent
  rw [h]

theorem C6_fallback_plan_witness :
    parsePlanXml "I cannot help with that.".data = .ok none ∧
    decomposeIntent "I cannot help with that.".data "make an app".data =
      .ok { intent := "make an app".data,
            confidence := 1/2,
            tasks := [{ id := "1".data,
                        description := "make an app".data,
                        successCriteria := "Task completed without errors".data,
                        dependencies := [] }],
            needsClarification := none } :=
  ⟨by rfl, C6_fallback_plan "I cannot help with that.".data "make an app".data (by rfl)⟩

/-- The retry loop makes at most `fuel` Coder invocations. -/
theorem executeAttempts_le (res : Nat → TaskStatus) :
    ∀ fuel attempt, (executeAttempts res attempt fuel).1 ≤ fuel := by
  intro fuel
  induction fuel with
  | zero => intro attempt; simp [executeAttempts]
  | succ n ih =>
    intro attempt
    rw [executeAttempts]
    by_cases h : res attempt = TaskStatus.completed
    · simp [h]
    · simp only [if_neg h]
      have := ih (attempt + 1)
      omega

/-- C4: in the Manager's task loop every task triggers at most
`max_retries + 1` Coder invocations (`defaultMaxRetries = 2` gives at
most three), and a task whose dependencies are not all in the
completed-task set at its turn triggers none. -/
theorem C4_retry_bound (maxRetries : Nat) (oracle : Task → Nat → TaskStatus)
    (tasks : List Task) (completed : List Str) (entry : Task × List Str × Nat)
    (h : entry ∈ processTasks maxRetries oracle tasks completed) :
    entry.2.2 ≤ maxRetries + 1 ∧ (entry.2.1 ≠ [] → entry.2.2 = 0) := by
  induction tasks generalizing completed with
  | nil => simp [processTasks] at h
  | cons t rest ih =>
    rw [processTasks] at h
    by_cases hm : missingDeps t.dependencies completed ≠ []
    · rw [if_pos hm] at h
      rcases List.mem_cons.mp h with heq | hmem
      · subst heq
        exact ⟨Nat.zero_le _, fun _ => rfl⟩
      · exact ih completed hmem
    · rw [if_neg hm] at h
      rcases List.mem_cons.mp h with heq | hmem
      · subst heq
        refine ⟨executeAttempts_le (oracle t) (maxRetries + 1) 0, fun hc => ?_⟩
        exact absurd rfl hc
      · exact ih _ hmem

theorem C4_retry_bound_witness :
    (({ id := "1".data, description := [], successCriteria := [], dependencies := [] },
      ([] : List Str), 3) ∈
      processTasks 2 (fun _ n => if n = 2 then TaskStatus.completed else TaskStatus.failed)
        [{ id := "1".data, description := [], successCriteria := [], dependencies := [] },
         { id := "2".data, description := [], successCriteria := [], dependencies := ["9".data] }]
        []) ∧
    (3 ≤ 2 + 1 ∧ (([] : List Str) ≠ [] → 3 = 0)) :=
  ⟨by decide,
   C4_retry_bound 2 (fun _ n => if n = 2 then TaskStatus.completed else TaskStatus.failed)
     [{ id := "1".data, description := [], successCriteria := [], dependencies := [] },
      { id := "2".data, description := [], successCriteria := [], dependencies := ["9".data] }]
     []
     ({ id := "1".data, description := [], successCriteria := [], dependencies := [] }, [], 3)
     (by decide)⟩

/-- C8: for a path that resolves inside the session cwd, `write_file`
creates every missing parent directory of the target, writes
`content or ""`, and reports `bytes_written = len(content or "")` — the
number of characters, which differs from the UTF-8 byte count (witnessed
by `"é"`); `append_file` appends the same way with the same count. -/
theorem C8_write_append (fs : FileSys) (cwd path : Str) (content : Option Str)
    (resolved : List Str) (h : resolvePath cwd path = .ok resolved) :
    (∃ fs2 res, writeFile fs cwd path content = .ok (fs2, res) ∧
       res.bytesWritten = (content.getD []).length ∧
       fs2.files resolved = some (content.getD []) ∧
       ∀ d ∈ dirChain resolved.dropLast, d ∈ fs2.dirs) ∧
    (∃ fs2 res, appendFile fs cwd path content = .ok (fs2, res) ∧
       res.bytesWritten = (content.getD []).length ∧
       fs2.files resolved = some ((fs.files resolved).getD [] ++ content.getD [])) ∧
    (utf8EncodeStr "é".data).length ≠ "é".data.length := by
  refine ⟨?_, ?_, by decide⟩
  · have hw : writeFile fs cwd path content =
        .ok ({ dirs := fs.dirs ++ dirChain resolved.dropLast,
               files := fun p => if p = resolved then some (content.getD []) else fs.files p },
             { path := path, bytesWritten := (content.getD []).length }) := by
      simp only [writeFile, h]
    exact ⟨_, _, hw, rfl, by simp, fun d hd => List.mem_append_right _ hd⟩
  · have ha : appendFile fs cwd path content =
        .ok ({ dirs := fs.dirs ++ dirChain resolved.dropLast,
               files := fun p =>
                 if p = resolved then some ((fs.files resolved).getD [] ++ content.getD [])
                 else fs.files p },
             { path := path, bytesWritten := (content.getD []).length }) := by
      simp only [appendFile, h]
    exact ⟨_, _, ha, rfl, by simp⟩

theorem C8_write_append_witness :
    resolvePath "/w".data "a/b.txt".data = .ok ["w".data, "a".data, "b.txt".data] ∧
    (∃ fs2 res,
      writeFile { dirs := [], files := fun _ => none } "/w".data "a/b.txt".data
          (some "hé".data) = .ok (fs2, res) ∧
      res.bytesWritten = ((some "hé".data).getD []).length ∧
      fs2.files ["w".data, "a".data, "b.txt".data] = some ((some "hé".data).getD []) ∧
      ∀ d ∈ dirChain (["w".data, "a".data, "b.txt".data]).dropLast, d ∈ fs2.dirs) :=
  ⟨by rfl,
   (C8_write_append { dirs := [], files := fun _ => none } "/w".data "a/b.txt".data
     (some "hé".data) ["w".data, "a".data, "b.txt".data] (by rfl)).1⟩

/-- C9: for any input containing a `<result>` block, the parsed status is
`COMPLETED` exactly when the (stripped, lowercased) status text is
`success` or `completed`, `IN_PROGRESS` exactly when it is `partial`, and
`FAILED` in every other case including a missing `<status>` tag. -/
theorem C9_status_mapping (content rt : Str) (r : TaskResult)
    (hrt : extractTag "<result>".data "</result>".data content = some rt)
    (h : parseResultXml content = some r) :
    (r.status = .completed ↔
      ∃ s, extractTag "<status>".data "</status>".data rt = some s ∧
        (pyLower (pyStrip s) = "success".data ∨ pyLower (pyStrip s) = "completed".data)) ∧
    (r.status = .inProgress ↔
      ∃ s, extractTag "<status>".data "</status>".data rt = some s ∧
        pyLower (pyStrip s) = "partial".data) ∧
    (r.status = .failed ↔
      ¬(∃ s, extractTag "<status>".data "</status>".data rt = some s ∧
          (pyLower (pyStrip s) = "success".data ∨ pyLower (pyStrip s) = "completed".data ∨
           pyLower (pyStrip s) = "partial".data))) := by
  rw [parseResultXml, hrt] at h
  simp only [Option.some.injEq] at h
  subst h
  cases hst : extractTag "<status>".data "</status>".data rt with
  | none => simp [hst, statusMap]
  | some s =>
    simp only [hst]
    by_cases h1 : pyLower (pyStrip s) = "success".data
    · simp [statusMap, h1]
    · by_cases h2 : pyLower (pyStrip s) = "completed".data
      · simp [statusMap, h1, h2]
      · by_cases h3 : pyLower (pyStrip s) = "partial".data
        · simp [statusMap, h1, h2, h3]
        · by_cases h4 : pyLower (pyStrip s) = "failed".data
          · simp [statusMap, h1, h2, h3, h4]
          · by_cases h5 : pyLower (pyStrip s) = "error".data
            · simp [statusMap, h1, h2, h3, h4, h5]
            · simp [statusMap, h1, h2, h3, h4, h5]

theorem C9_status_mapping_witness :
    extractTag "<result>".data "</result>".data
        "<result><status> Partial </status></result>".data =
      some "<status> Partial </status>".data ∧
    parseResultXml "<result><status> Partial </status></result>".data =
      some { status := .inProgress, summary := [], filesChanged := [],
             tested := false, errors := [] } ∧
    (({ status := .inProgress, summary := [], filesChanged := [],
        tested := false, errors := [] } : TaskResult).status = .inProgress ↔
      ∃ s, extractTag "<status>".data "</status>".data
          "<status> Partial </status>".data = some s ∧
        pyLower (pyStrip s) = "partial".data) :=
  ⟨by rfl, by rfl,
   (C9_status_mapping "<result><status> Partial </status></result>".data
     "<status> Partial </status>".data
     { status := .inProgress, summary := [], filesChanged := [],
       tested := false, errors := [] }
     (by rfl) (by rfl)).2.1⟩

theorem b64Index_b64Char : ∀ s, s < 64 → b64Index (b64Char s) = some s := by decide

theorem b64Char_ne_pad : ∀ s, s < 64 → b64Char s ≠ '=' := by decide

/-- Base64 round-trip over byte lists. -/
theorem b64_roundtrip : ∀ bs : List Nat, (∀ b ∈ bs, b < 256) →
    b64decode (b64encode bs) = some bs := by
  intro bs
  induction bs using b64encode.induct with
  | case1 =>
    intro _
    simp [b64encode, b64decode]
  | case2 a =>
    intro hb
    have ha : a < 256 := hb a (by simp)
    have h1 : b64Index (b64Char (a / 4)) = some (a / 4) := b64Index_b64Char _ (by omega)
    have h2 : b64Index (b64Char (a % 4 * 16)) = some (a % 4 * 16) := b64Index_b64Char _ (by omega)
    simp [b64encode, b64decode, h1, h2]
    omega
  | case3 a b =>
    intro hb
    have ha : a < 256 := hb a (by simp)
    have hbb : b < 256 := hb b (by simp)
    have h1 : b64Index (b64Char (a / 4)) = some (a / 4) := b64Index_b64Char _ (by omega)
    have h2 : b64Index (b64Char (a % 4 * 16 + b / 16)) = some (a % 4 * 16 + b / 16) :=
      b64Index_b64Char _ (by omega)
    have h3 : b64Index (b64Char (b % 16 * 4)) = some (b % 16 * 4) := b64Index_b64Char _ (by omega)
    have hne : b64Char (b % 16 * 4) ≠ '=' := b64Char_ne_pad _ (by omega)
    simp [b64encode, b64decode, h1, h2, h3, hne]
    omega
  | case4 a b c rest ih =>
    intro hb
    have ha : a < 256 := hb a (by simp)
    have hbb : b < 256 := hb b (by simp)
    have hc : c < 256 := hb c (by simp)
    have h1 : b64Index (b64Char (a / 4)) = some (a / 4) := b64Index_b64Char _ (by omega)
    have h2 : b64Index (b64Char (a % 4 * 16 + b / 16)) = some (a % 4 * 16 + b / 16) :=
      b64Index_b64Char _ (by omega)
    have h3 : b64Index (b64Char (b % 16 * 4 + c / 64)) = some (b % 16 * 4 + c / 64) :=
      b64Index_b64Char _ (by omega)
    have h4 : b64Index (b64Char (c % 64)) = some (c % 64) := b64Index_b64Char _ (by omega)
    have hne3 : b64Char (b % 16 * 4 + c / 64) ≠ '=' := b64Char_ne_pad _ (by omega)
    have hne4 : b64Char (c % 64) ≠ '=' := b64Char_ne_pad _ (by omega)
    have ihh := ih (fun x hx => hb x (by simp [hx]))
    simp [b64encode, b64decode, h1, h2, h3, h4, hne3, hne4, ihh]
    omega

/-- Every UTF-8 code unit produced for code points below `0x110000` is a
byte. -/
theorem utf8Encode_bytes : ∀ s : List Nat, (∀ n ∈ s, n < 0x110000) →
    ∀ b ∈ utf8Encode s, b < 256 := by
  intro s
  induction s with
  | nil => intro _ b hb; simp [utf8Encode] at hb
  | cons n rest ih =>
    intro hv b hb
    simp only [utf8Encode, List.map_cons, List.flatten_cons, List.mem_append] at hb
    rcases hb with hb | hb
    · have hn : n < 0x110000 := hv n (by simp)
      by_cases h1 : n < 0x80
      · simp [utf8EncodeChar, h1] at hb
        omega
      · by_cases h2 : n < 0x800
        · simp [utf8EncodeChar, h1, h2] at hb
          rcases hb with rfl | rfl <;> omega
        · by_cases h3 : n < 0x10000
          · simp [utf8EncodeChar, h1, h2, h3] at hb
            rcases hb with rfl | rfl | rfl <;> omega
          · simp [utf8EncodeChar, h1, h2, h3] at hb
            rcases hb with rfl | rfl | rfl | rfl <;> omega
    · exact ih (fun x hx => hv x (by simp [hx])) b hb

/-- Unfolding lemma for `utf8Decode` on a successfully decoded head
sequence. -/
theorem utf8Decode_cons_eq (b0 : Nat) (tail : List Nat) (cp : Nat) (rem : List Nat)
    (hone : utf8DecodeOne b0 tail = some (cp, rem)) :
    utf8Decode (b0 :: tail) = (utf8Decode rem).map (fun cps => cp :: cps) := by
  simp only [utf8Decode]
  split
  · rename_i p hp
    rw [hone] at hp
    cases Option.some.inj hp
    rfl
  · rename_i hp
    rw [hone] at hp
    simp at hp

/-- UTF-8 round-trip over valid code points. -/
theorem utf8_roundtrip : ∀ s : List Nat, (∀ n ∈ s, Nat.isValidChar n) →
    utf8Decode (utf8Encode s) = some s := by
  intro s
  induction s with
  | nil =>
    intro _
    simp [utf8Encode, utf8Decode]
  | cons n rest ih =>
    intro hv
    have hval : n < 0xD800 ∨ (0xE000 ≤ n ∧ n < 0x110000) := hv n (by simp)
    have ihh := ih (fun x hx => hv x (by simp [hx]))
    have hgoal : utf8Encode (n :: rest) = utf8EncodeChar n ++ utf8Encode rest := by
      simp [utf8Encode]
    rw [hgoal]
    by_cases h1 : n < 0x80
    · have he : utf8EncodeChar n = [n] := by simp [utf8EncodeChar, h1]
      rw [he]
      simp only [List.cons_append, List.nil_append]
      have hone : utf8DecodeOne n (utf8Encode rest) = some (n, utf8Encode rest) := by
        simp [utf8DecodeOne, h1]
      rw [utf8Decode_cons_eq _ _ _ _ hone, ihh]
      rfl
    · by_cases h2 : n < 0x800
      · obtain ⟨b0, b1, he, hb0a, hb0b, hb1a, hb1b, hcp⟩ :
          ∃ b0 b1, utf8EncodeChar n = [b0, b1] ∧ 0xC2 ≤ b0 ∧ b0 < 0xE0 ∧
            0x80 ≤ b1 ∧ b1 < 0xC0 ∧ (b0 - 0xC0) * 64 + (b1 - 0x80) = n :=
          ⟨0xC0 + n / 64, 0x80 + n % 64, by simp [utf8EncodeChar, h1, h2],
           by omega, by omega, by omega, by omega, by omega⟩
        rw [he]
        simp only [List.cons_append, List.nil_append]
        have hc1 : ¬(b0 < 0x80) := by omega
        have hc2 : ¬(b0 < 0xC2) := by omega
        have hone : utf8DecodeOne b0 (b1 :: utf8Encode rest) = some (n, utf8Encode rest) := by
          simp [utf8DecodeOne, hc1, hc2, hb0b, hb1a, hb1b, hcp]
        rw [utf8Decode_cons_eq _ _ _ _ hone, ihh]
        rfl
      · by_cases h3 : n < 0x10000
        · obtain ⟨b0, b1, b2, he, hb0a, hb0b, hb1a, hb1b, hb2a, hb2b, hcp⟩ :
            ∃ b0 b1 b2, utf8EncodeChar n = [b0, b1, b2] ∧ 0xE0 ≤ b0 ∧ b0 < 0xF0 ∧
              0x80 ≤ b1 ∧ b1 < 0xC0 ∧ 0x80 ≤ b2 ∧ b2 < 0xC0 ∧
              (b0 - 0xE0) * 4096 + (b1 - 0x80) * 64 + (b2 - 0x80) = n :=
            ⟨0xE0 + n / 4096, 0x80 + n / 64 % 64, 0x80 + n % 64,
             by simp [utf8EncodeChar, h1, h2, h3],
             by omega, by omega, by omega, by omega, by omega, by omega, by omega⟩
          rw [he]
          simp only [List.cons_append, List.nil_append]
          have hc1 : ¬(b0 < 0x80) := by omega
          have hc2 : ¬(b0 < 0xC2) := by omega
          have hc3 : ¬(b0 < 0xE0) := by omega
          have hval2 : 0x800 ≤ n ∧ (n < 0xD800 ∨ 0xE000 ≤ n) := by omega
          have hrange :
              ¬((b0 - 0xE0) * 4096 + (b1 - 0x80) * 64 + (b2 - 0x80) < 0x800 ∨
                0xD800 ≤ (b0 - 0xE0) * 4096 + (b1 - 0x80) * 64 + (b2 - 0x80) ∧
                  (b0 - 0xE0) * 4096 + (b1 - 0x80) * 64 + (b2 - 0x80) < 0xE000) := by
            omega
          have hone : utf8DecodeOne b0 (b1 :: b2 :: utf8Encode rest) =
              some (n, utf8Encode rest) := by
            simp only [utf8DecodeOne, if_neg hc1, if_neg hc2, if_neg hc3, if_pos hb0b]
            simp [hb1a, hb1b, hb2a, hb2b, hrange, hcp]
            omega
          rw [utf8Decode_cons_eq _ _ _ _ hone, ihh]
          rfl
        · obtain ⟨b0, b1, b2, b3, he, hb0a, hb0b, hb1a, hb1b, hb2a, hb2b, hb3a, hb3b, hcp⟩ :
            ∃ b0 b1 b2 b3, utf8EncodeChar n = [b0, b1, b2, b3] ∧ 0xF0 ≤ b0 ∧ b0 < 0xF5 ∧
              0x80 ≤ b1 ∧ b1 < 0xC0 ∧ 0x80 ≤ b2 ∧ b2 < 0xC0 ∧ 0x80 ≤ b3 ∧ b3 < 0xC0 ∧
              (b0 - 0xF0) * 262144 + (b1 - 0x80) * 4096 + (b2 - 0x80) * 64 + (b3 - 0x80) = n :=
            ⟨0xF0 + n / 262144, 0x80 + n / 4096 % 64, 0x80 + n / 64 % 64, 0x80 + n % 64,
             by simp [utf8EncodeChar, h1, h2, h3],
             by omega, by omega, by omega, by omega, by omega, by omega, by omega, by omega,
             by omega⟩
          rw [he]
          simp only [List.cons_append, List.nil_append]
          have hc1 : ¬(b0 < 0x80) := by omega
          have hc2 : ¬(b0 < 0xC2) := by omega
          have hc3 : ¬(b0 < 0xE0) := by omega
          have hc4 : ¬(b0 < 0xF0) := by omega
          have hrange :
              ¬((b0 - 0xF0) * 262144 + (b1 - 0x80) * 4096 + (b2 - 0x80) * 64 + (b3 - 0x80)
                  < 0x10000 ∨
                0x110000 ≤
                  (b0 - 0xF0) * 262144 + (b1 - 0x80) * 4096 + (b2 - 0x80) * 64 + (b3 - 0x80)) := by
            omega
          have hone : utf8DecodeOne b0 (b1 :: b2 :: b3 :: utf8Encode rest) =
              some (n, utf8Encode rest) := by
            simp only [utf8DecodeOne, if_neg hc1, if_neg hc2, if_neg hc3, if_neg hc4,
              if_pos hb0b]
            simp [hb1a, hb1b, hb2a, hb2b, hb3a, hb3b, hrange, hcp]
            omega
          rw [utf8Decode_cons_eq _ _ _ _ hone, ihh]
          rfl

/-- C7: decoding the `body_b64` stored by `record_event` (base64 of the
UTF-8 bytes of the supplied content, a `None` content standing for the
empty string) recovers the originally supplied content byte-for-byte. -/
theorem C7_body_roundtrip (nowTs : Str) (e : EventIn) :
    (recordEvent nowTs e).bodyB64 = b64encode (utf8EncodeStr (e.content.getD [])) ∧
    decodeBody ((recordEvent nowTs e).bodyB64) = some (e.content.getD []) := by
  refine ⟨rfl, ?_⟩
  have hval : ∀ m ∈ (e.content.getD []).map Char.toNat, Nat.isValidChar m := by
    intro m hm
    rcases List.mem_map.mp hm with ⟨c, -, rfl⟩
    exact c.valid
  have hbytes : ∀ b ∈ utf8EncodeStr (e.content.getD []), b < 256 := by
    refine utf8Encode_bytes _ (fun m hm => ?_)
    rcases hval m hm with h | h
    · omega
    · omega
  show decodeBody (b64encode (utf8EncodeStr (e.content.getD []))) = _
  rw [decodeBody, b64_roundtrip _ hbytes]
  simp only [Option.bind_eq_bind, Option.some_bind]
  rw [utf8EncodeStr, utf8_roundtrip _ hval]
  simp [Char.ofNat_toNat]
  have hcomp : (Char.ofNat ∘ Char.toNat) = id := funext (fun c => Char.ofNat_toNat c)
  rw [hcomp, List.map_id]

/-- C10: `kill_session` returns `True` exactly when the id is an active
session, in which case the id is removed from all four registries; an
inactive id leaves the state untouched; and in both cases every other
session's entries in all four registries are unchanged. -/
theorem C10_kill_session {A B C D : Type} (st : MgrState A B C D) (sid : Str) :
    ((killSession st sid).1 = (st.sessions sid).isSome) ∧
    ((st.sessions sid).isSome = true →
      ((killSession st sid).2.sessions sid = none ∧
       (killSession st sid).2.sessionMetadata sid = none ∧
       (killSession st sid).2.transcripts sid = none ∧
       (killSession st sid).2.transcriptPaths sid = none)) ∧
    ((st.sessions sid).isSome = false → (killSession st sid).2 = st) ∧
    (∀ k, k ≠ sid →
      ((killSession st sid).2.sessions k = st.sessions k ∧
       (killSession st sid).2.sessionMetadata k = st.sessionMetadata k ∧
       (killSession st sid).2.transcripts k = st.transcripts k ∧
       (killSession st sid).2.transcriptPaths k = st.transcriptPaths k)) := by
  cases hs : st.sessions sid with
  | none => simp [killSession, hs]
  | some v =>
    refine ⟨by simp [killSession, hs], fun _ => by simp [killSession, hs], by simp [hs], ?_⟩
    intro k hk
    simp [killSession, hs, hk]

theorem C10_kill_session_witness :
    ("s2".data ≠ "s1".data) ∧
    ((killSession
        ({ sessions := fun k => if k = "s1".data then some 1 else some 2,
           sessionMetadata := fun _ => some 10,
           transcripts := fun _ => some 20,
           transcriptPaths := fun _ => some 30 } : MgrState Nat Nat Nat Nat)
        "s1".data).2.sessions "s2".data =
      (if "s2".data = "s1".data then some 1 else some 2)) :=
  ⟨by decide,
   ((C10_kill_session
      ({ sessions := fun k => if k = "s1".data then some 1 else some 2,
         sessionMetadata := fun _ => some 10,
         transcripts := fun _ => some 20,
         transcriptPaths := fun _ => some 30 } : MgrState Nat Nat Nat Nat)
      "s1".data).2.2.2 "s2".data (by decide)).1⟩

end Kestrel
